import Mathlib

/-!
# goblas/general.go — strided dense matrix storage

A shallow embedding of `src/goblas/general.go`.

Modelling conventions.

* Go's `int` is modelled by `Int`; index arithmetic is taken without
  wrap-around (sizes are those of buffers that exist in memory).
* A Go slice is a header `(arr, off, len, cap)` into a store of backing
  arrays (`Heap`).  Two slices alias when they name the same backing array.
  Indexing checks `0 ≤ k < len`, re-slicing checks `0 ≤ lo ≤ hi ≤ cap`,
  as the Go runtime does; a run-time panic is the result `none`.
* `float64` arithmetic is not interpreted in the general theorems: the
  operations the file uses (`0`, `+`, `-`, `math.Abs`, `!=`, `>`) are the fields
  of `Float64`, and those theorems hold for every interpretation.  `ieee` is
  the interpretation by IEEE-754 binary64 (round to nearest, ties to even),
  `intFloat` its restriction to integer values, where it is exact.
* `debug` is the constant `false`, so the guarded panics are dead code and
  are left out.
-/

set_option autoImplicit false

namespace goblas

/-! ## Go run-time model: float64, slices, the store -/

/-- The operations on `float64` used by `general.go`. -/
structure Float64 (F : Type) where
  /-- the zero value, with which `make` fills a new buffer -/
  zero : F
  /-- the sum `x + y` -/
  add : F → F → F
  /-- the difference `x - y` -/
  sub : F → F → F
  /-- the absolute value `math.Abs(x)` -/
  abs : F → F
  /-- the comparison `x != y` -/
  ne : F → F → Bool
  /-- the comparison `x > y` -/
  gt : F → F → Bool

/-- Integer-valued floats: on integers of magnitude below `2^53` the float64
operations are exact, so they coincide with the integer ones. -/
def intFloat : Float64 Int where
  zero := 0
  add := fun x y => x + y
  sub := fun x y => x - y
  abs := fun x => |x|
  ne := fun x y => decide (x ≠ y)
  gt := fun x y => decide (x > y)

/-- The values of IEEE-754 binary64: NaN, the infinities, and the finite
values `± mag * 2^(-1074)` (so `fin false 0` is `+0`, `fin true 0` is `-0`, and
`fin false 1` is the smallest subnormal). A magnitude below `2^53` is always
representable. -/
inductive F64 where
  | nan
  | inf (neg : Bool)
  | fin (neg : Bool) (mag : Nat)
deriving DecidableEq, Repr

/-- The number of binary digits of `n`, for `n` below `2^fuel`. -/
def bitLen : Nat → Nat → Nat
  | 0, _ => 0
  | fuel + 1, n => if n = 0 then 0 else bitLen fuel (n / 2) + 1

/-- Rounding of an exact magnitude `n` (in units of `2^(-1074)`) to 53
significant bits, to nearest with ties to even; overflow gives infinity. -/
def F64.round (neg : Bool) (n : Nat) : F64 :=
  if n < 2 ^ 53 then .fin neg n
  else
    let e := bitLen 2100 n - 53
    let q := n / 2 ^ e
    let r := n % 2 ^ e
    let q' := if 2 * r > 2 ^ e ∨ (2 * r = 2 ^ e ∧ q % 2 = 1) then q + 1 else q
    if bitLen 2100 (q' * 2 ^ e) > 2098 then .inf neg else .fin neg (q' * 2 ^ e)

/-- IEEE addition, round to nearest even. -/
def F64.add : F64 → F64 → F64
  | .nan, _ => .nan
  | _, .nan => .nan
  | .inf a, .inf b => if a = b then .inf a else .nan
  | .inf a, .fin _ _ => .inf a
  | .fin _ _, .inf b => .inf b
  | .fin a x, .fin b y =>
    if a = b then F64.round a (x + y)
    else if x = y then .fin false 0
    else if x > y then F64.round a (x - y) else F64.round b (y - x)

/-- IEEE negation. -/
def F64.neg : F64 → F64
  | .nan => .nan
  | .inf a => .inf (!a)
  | .fin a x => .fin (!a) x

/-- IEEE absolute value. -/
def F64.abs : F64 → F64
  | .nan => .nan
  | .inf _ => .inf false
  | .fin _ x => .fin false x

/-- IEEE `!=`: true when an operand is NaN; the two zeros are equal. -/
def F64.ne : F64 → F64 → Bool
  | .nan, _ => true
  | _, .nan => true
  | .inf a, .inf b => a != b
  | .fin a x, .fin b y => !(x == y && (a == b || x == 0))
  | _, _ => true

/-- IEEE `>`: false when an operand is NaN. -/
def F64.gt : F64 → F64 → Bool
  | .nan, _ => false
  | _, .nan => false
  | .inf a, .inf b => !a && b
  | .inf a, .fin _ _ => !a
  | .fin _ _, .inf b => b
  | .fin a x, .fin b y =>
    decide ((if a then -(x : Int) else (x : Int)) > (if b then -(y : Int) else (y : Int)))

/-- The float64 operations of Go: IEEE-754 binary64. -/
def ieee : Float64 F64 where
  zero := .fin false 0
  add := F64.add
  sub := fun x y => F64.add x (F64.neg y)
  abs := F64.abs
  ne := F64.ne
  gt := F64.gt

/-- The store: the backing arrays allocated so far. -/
abbrev Heap (F : Type) := List (List F)

/-- A slice header: backing array, offset of element 0 in it, length and
capacity. -/
structure Slice where
  arr : Nat
  off : Nat
  len : Nat
  cap : Nat
deriving DecidableEq, Repr

/-- The slice header lies inside its backing array. -/
def Slice.valid {F : Type} (s : Slice) (m : Heap F) : Prop :=
  s.len ≤ s.cap ∧ ∃ a, m[s.arr]? = some a ∧ s.off + s.cap ≤ a.length

/-- The element `idx` of backing array `a`, when there is one. -/
def cell {F : Type} (m : Heap F) (a idx : Nat) : Option F :=
  match m[a]? with
  | some l => l[idx]?
  | none => none

/-- The store with element `idx` of backing array `a` set to `x`. -/
def store {F : Type} (m : Heap F) (a idx : Nat) (x : F) : Option (Heap F) :=
  match m[a]? with
  | some l => if idx < l.length then some (m.set a (l.set idx x)) else none
  | none => none

/-- The index expression `s[k]` read: panics unless `0 ≤ k < len(s)`. -/
def Slice.get {F : Type} (s : Slice) (m : Heap F) (k : Int) : Option F :=
  if 0 ≤ k ∧ k < s.len then cell m s.arr (s.off + k.toNat) else none

/-- The assignment `s[k] = x`: panics unless `0 ≤ k < len(s)`. -/
def Slice.set {F : Type} (s : Slice) (m : Heap F) (k : Int) (x : F) : Option (Heap F) :=
  if 0 ≤ k ∧ k < s.len then store m s.arr (s.off + k.toNat) x else none

/-- The slice expression `s[lo:hi]`: panics unless `0 ≤ lo ≤ hi ≤ cap(s)`. -/
def Slice.slice (s : Slice) (lo hi : Int) : Option Slice :=
  if 0 ≤ lo ∧ lo ≤ hi ∧ hi ≤ s.cap then
    some ⟨s.arr, s.off + lo.toNat, (hi - lo).toNat, s.cap - lo.toNat⟩
  else none

/-- The list `a` with the slots from `off` on replaced by `vals`. -/
def overwrite {F : Type} (a : List F) (off : Nat) (vals : List F) : List F :=
  a.take off ++ vals ++ a.drop (off + vals.length)

/-- The builtin `copy(dst, src)`: moves `min(len(dst), len(src))` elements, the
source being read in full before the destination is written. -/
def Slice.copy {F : Type} (dst src : Slice) (m : Heap F) : Option (Heap F) :=
  match m[src.arr]?, m[dst.arr]? with
  | some a, some b =>
    if src.off + min dst.len src.len ≤ a.length ∧ dst.off + min dst.len src.len ≤ b.length then
      some (m.set dst.arr (overwrite b dst.off ((a.drop src.off).take (min dst.len src.len))))
    else none
  | _, _ => none

/-- The builtin `make([]float64, n)`: a fresh zero-filled array with
`len = cap = n`; panics when `n < 0`. -/
def make {F : Type} (fl : Float64 F) (n : Int) (m : Heap F) : Option (Slice × Heap F) :=
  if n < 0 then none
  else some (⟨m.length, 0, n.toNat, n.toNat⟩, m ++ [List.replicate n.toNat fl.zero])

/-! ## general.go -/

/-- The Go `error` result: `none` is `nil`. -/
abbrev error := Option String

/-- The struct `general`. -/
structure general where
  data : Slice
  rows : Int
  cols : Int
  stride : Int
deriving DecidableEq, Repr

/-- The constructor `newGeneral(r, c)`. -/
def newGeneral {F : Type} (fl : Float64 F) (r c : Int) (m : Heap F) : Option (general × Heap F) :=
  match make fl (r * c) m with
  | some (data, m') => some ({ data := data, rows := r, cols := c, stride := c }, m')
  | none => none

/-- The method `g.at(i, j)`: returns `g.data[i*g.stride+j]`. -/
def general.at {F : Type} (g : general) (m : Heap F) (i j : Int) : Option F :=
  g.data.get m (i * g.stride + j)

/-- The method `g.add(h)`: the two loops of `g.data[i*g.stride+j] += h.at(i, j)`. -/
def general.add {F : Type} (fl : Float64 F) (g h : general) (m : Heap F) : Option (Heap F) :=
  (List.range g.rows.toNat).foldlM (fun m1 (i : Nat) =>
    (List.range g.cols.toNat).foldlM (fun m2 (j : Nat) =>
      match g.data.get m2 ((i : Int) * g.stride + j), general.at h m2 i j with
      | some x, some y => g.data.set m2 ((i : Int) * g.stride + j) (fl.add x y)
      | _, _ => none) m1) m

/-- The method `g.check()`. -/
def general.check (g : general) : error :=
  if g.rows < 0 then some "general: rows < 0"
  else if g.cols < 0 then some "general: cols < 0"
  else if g.stride < 1 then some "general: stride < 1"
  else if g.stride < g.cols then some "general: illegal stride"
  else if (g.rows - 1) * g.stride + g.cols > g.data.len then some "general: insufficient length"
  else none

/-- The method `g.clone()`. -/
def general.clone {F : Type} (fl : Float64 F) (g : general) (m : Heap F) : Option (general × Heap F) :=
  match make fl g.data.len m with
  | some (data, m1) =>
    match Slice.copy data g.data m1 with
    | some m2 => some ({ data := data, rows := g.rows, cols := g.cols, stride := g.stride }, m2)
    | none => none
  | none => none

/-- The method `g.copy(h)`: one builtin `copy` per row `k`, between
`g.data[k*g.stride:(k+1)*g.stride]` and `h.data[k*h.stride:(k+1)*h.stride]`. -/
def general.copy {F : Type} (g h : general) (m : Heap F) : Option (Heap F) :=
  (List.range g.rows.toNat).foldlM (fun m1 (k : Nat) =>
    match g.data.slice ((k : Int) * g.stride) (((k : Int) + 1) * g.stride),
          h.data.slice ((k : Int) * h.stride) (((k : Int) + 1) * h.stride) with
    | some dst, some src => Slice.copy dst src m1
    | _, _ => none) m

/-- The loop of `equal`, over the indices still to visit. -/
def general.equalLoop {F : Type} (fl : Float64 F) (g a : general) (m : Heap F) :
    List Nat → Option Bool
  | [] => some true
  | i :: rest =>
    match g.data.get m i, a.data.get m i with
    | some v, some w => if fl.ne w v then some false else general.equalLoop fl g a m rest
    | _, _ => none

/-- The method `g.equal(a)`. -/
def general.equal {F : Type} (fl : Float64 F) (g a : general) (m : Heap F) : Option Bool :=
  if g.rows ≠ a.rows ∨ g.cols ≠ a.cols ∨ g.stride ≠ a.stride then some false
  else general.equalLoop fl g a m (List.range g.data.len)

/-- The method `g.view(i, j, r, c)`. -/
def general.view (g : general) (i j r c : Int) : Option general :=
  match g.data.slice (i * g.stride + j) ((i + r - 1) * g.stride + j + c) with
  | some data => some { data := data, rows := r, cols := c, stride := g.stride }
  | none => none

/-- The loop of `equalWithinAbs`, over the indices still to visit. -/
def general.equalWithinAbsLoop {F : Type} (fl : Float64 F) (g a : general) (tol : F)
    (m : Heap F) : List Nat → Option Bool
  | [] => some true
  | i :: rest =>
    match g.data.get m i, a.data.get m i with
    | some v, some w =>
      if fl.gt (fl.abs (fl.sub w v)) tol then some false
      else general.equalWithinAbsLoop fl g a tol m rest
    | _, _ => none

/-- The method `g.equalWithinAbs(a, tol)`. -/
def general.equalWithinAbs {F : Type} (fl : Float64 F) (g a : general) (tol : F)
    (m : Heap F) : Option Bool :=
  if g.rows ≠ a.rows ∨ g.cols ≠ a.cols ∨ g.stride ≠ a.stride then some false
  else general.equalWithinAbsLoop fl g a tol m (List.range g.data.len)

/-! ## Auxiliary definitions and example values -/

/-- The position in the backing array of the slot `g` uses for `(i, j)`. -/
def slot (g : general) (i j : Nat) : Nat :=
  g.data.off + ((i : Int) * g.stride + j).toNat

/-- The state of the store while `g.copy(h)` runs from the store `m`, before
row `k`: in the rows done the first `min(g.stride, h.stride)` slots hold the
slots of `h`'s row, everything else is as in `m`. -/
def copyInv {F : Type} (g h : general) (m : Heap F) (k : Nat) (m2 : Heap F) : Prop :=
  (g.data.valid m2 ∧ h.data.valid m2) ∧
  (∀ k' t : Nat, k' < k → (t : Int) < g.stride → (t : Int) < h.stride →
    cell m2 g.data.arr (slot g k' t) = cell m h.data.arr (slot h k' t)) ∧
  (∀ a idx : Nat,
    (∀ k' t : Nat, k' < k → (t : Int) < g.stride → (t : Int) < h.stride →
      ¬ (a = g.data.arr ∧ idx = slot g k' t)) →
    cell m2 a idx = cell m a idx)

/-- Two buffers of five slots that differ in the last one. -/
def m9 : Heap Int := [[0, 0, 0, 0, 7], [1, 2, 3, 4, 8]]

/-- A 2x2 matrix with stride 2 over the five slots of the first array of `m9`. -/
def g9 : general := ⟨⟨0, 0, 5, 5⟩, 2, 2, 2⟩

/-- A 2x2 matrix with stride 2 over the five slots of the second array of `m9`. -/
def h9 : general := ⟨⟨1, 0, 5, 5⟩, 2, 2, 2⟩

/-- Two buffers of four slots. -/
def mB : Heap Int := [[0, 0, 0, 0], [1, 2, 3, 4]]

/-- A 2x2 matrix with stride 2 over the first array of `mB`. -/
def gB : general := ⟨⟨0, 0, 4, 4⟩, 2, 2, 2⟩

/-- A 2x2 matrix with stride 2 over the second array of `mB`. -/
def hB : general := ⟨⟨1, 0, 4, 4⟩, 2, 2, 2⟩

/-- A buffer of four slots and a buffer of two. -/
def m10 : Heap Int := [[9, 9, 9, 9], [1, 2]]

/-- A 2x1 matrix with stride 2 over the first array of `m10`. -/
def g10 : general := ⟨⟨0, 0, 4, 4⟩, 2, 1, 2⟩

/-- A 2x1 matrix with stride 1 over the second array of `m10`. -/
def h10 : general := ⟨⟨1, 0, 2, 2⟩, 2, 1, 1⟩

/-- A store with one buffer holding a NaN. -/
def mNaN : Heap F64 := [[F64.nan]]

/-- A 1x1 matrix over the buffer of `mNaN`. -/
def gNaN : general := ⟨⟨0, 0, 1, 1⟩, 1, 1, 1⟩

/-- A buffer of four slots and a buffer with the same four values and one more. -/
def m14 : Heap Int := [[1, 2, 3, 4], [1, 2, 3, 4, 5]]

/-- A 2x2 matrix with stride 2 over the first array of `m14`. -/
def g14 : general := ⟨⟨0, 0, 4, 4⟩, 2, 2, 2⟩

/-- A 2x2 matrix with stride 2 over the five slots of the second array of `m14`. -/
def a14 : general := ⟨⟨1, 0, 5, 5⟩, 2, 2, 2⟩

/-- The interpretation of the float64 operations as exact arithmetic on an
ordered ring: `-` is subtraction, `math.Abs` the absolute value, `>` the
order. -/
def Float64.exact {F : Type} [LinearOrderedRing F] (fl : Float64 F) : Prop :=
  (∀ x y : F, fl.sub x y = x - y) ∧ (∀ x : F, fl.abs x = |x|) ∧
    (∀ x y : F, fl.gt x y = true ↔ y < x)

/-- A store with two buffers that each hold a NaN. -/
def mNaN2 : Heap F64 := [[F64.nan], [F64.nan]]

/-- A 1x1 matrix over the second buffer of `mNaN2` (`gNaN` is over the first). -/
def aNaN : general := ⟨⟨1, 0, 1, 1⟩, 1, 1, 1⟩

/-- A buffer with values 1, 2, 3, 4 and a buffer with values 3, 1, 5, 3. -/
def m15 : Heap Int := [[1, 2, 3, 4], [3, 1, 5, 3]]

/-- A store with two backing arrays. -/
def mA : Heap Int := [[1, 2, 3, 4, 5, 6], [10, 20, 30, 40]]

/-- A 2x2 matrix with stride 3 over the first array of `mA`. -/
def gA : general := ⟨⟨0, 0, 6, 6⟩, 2, 2, 3⟩

/-- A 2x2 matrix with stride 2 over the second array of `mA`. -/
def hA : general := ⟨⟨1, 0, 4, 4⟩, 2, 2, 2⟩

/-- A store holding one backing array of six slots. -/
def m23 : Heap Int := [[1, 2, 3, 4, 5, 6]]

/-- A 2x3 matrix with stride 3 over the array of `m23`. -/
def g23 : general := ⟨⟨0, 0, 6, 6⟩, 2, 3, 3⟩

/-! ## Lemmas on the run-time model -/

theorem make_eq {F : Type} (fl : Float64 F) (n : Int) (m : Heap F) (hn : 0 ≤ n) :
    make fl n m = some (⟨m.length, 0, n.toNat, n.toNat⟩, m ++ [List.replicate n.toNat fl.zero]) := by
  unfold make
  rw [if_neg (by omega)]

theorem get_make {F : Type} (fl : Float64 F) (n : Nat) (m : Heap F) (k : Int)
    (h0 : 0 ≤ k) (h1 : k < n) :
    Slice.get ⟨m.length, 0, n, n⟩ (m ++ [List.replicate n fl.zero]) k = some fl.zero := by
  unfold Slice.get cell
  have hk : k.toNat < n := by omega
  simp [h0, h1, hk]

theorem cell_some_of_valid {F : Type} {m : Heap F} {s : Slice} (hv : s.valid m) {idx : Nat}
    (h : idx < s.off + s.cap) : ∃ y, cell m s.arr idx = some y := by
  obtain ⟨_, l, hl, hlen⟩ := hv
  unfold cell
  rw [hl]
  exact ⟨l[idx], by simp [List.getElem?_eq_getElem (show idx < l.length by omega)]⟩

theorem get_eq_cell {F : Type} (s : Slice) (m : Heap F) (k : Int) (h0 : 0 ≤ k) (h1 : k < s.len) :
    s.get m k = cell m s.arr (s.off + k.toNat) := by
  unfold Slice.get
  rw [if_pos ⟨h0, h1⟩]

theorem slice_eq (s : Slice) (lo hi : Int) (h0 : 0 ≤ lo) (h1 : lo ≤ hi) (h2 : hi ≤ s.cap) :
    s.slice lo hi = some ⟨s.arr, s.off + lo.toNat, (hi - lo).toNat, s.cap - lo.toNat⟩ := by
  unfold Slice.slice
  rw [if_pos ⟨h0, h1, h2⟩]

/-- The facts `check` establishes, in the form the index arithmetic uses. -/
theorem check_none {g : general} (h : g.check = none) :
    0 ≤ g.rows ∧ 0 ≤ g.cols ∧ 1 ≤ g.stride ∧ g.cols ≤ g.stride ∧
      (g.rows - 1) * g.stride + g.cols ≤ g.data.len := by
  unfold general.check at h
  split at h
  · exact Option.noConfusion h
  split at h
  · exact Option.noConfusion h
  split at h
  · exact Option.noConfusion h
  split at h
  · exact Option.noConfusion h
  split at h
  · exact Option.noConfusion h
  omega

/-- An in-range position of a checked matrix indexes inside the buffer. -/
theorem index_in_range {g : general} (h : g.check = none) {i j : Int}
    (hi0 : 0 ≤ i) (hi : i < g.rows) (hj0 : 0 ≤ j) (hj : j < g.cols) :
    0 ≤ i * g.stride + j ∧ i * g.stride + j < g.data.len := by
  obtain ⟨_, _, hs, hcs, hlen⟩ := check_none h
  have h1 : 0 ≤ i * g.stride := Int.mul_nonneg hi0 (by omega)
  have h2 : i * g.stride ≤ (g.rows - 1) * g.stride :=
    Int.mul_le_mul_of_nonneg_right (by omega) (by omega)
  omega

/-- A loop `for k := 0; k < n; k++` whose body cannot fail under the invariant
runs to completion and establishes the invariant at `n`. -/
theorem foldlM_range_inv {S : Type} (f : S → Nat → Option S) (P : Nat → S → Prop) (n : Nat)
    (s0 : S) (h0 : P 0 s0)
    (hstep : ∀ k s, k < n → P k s → ∃ s', f s k = some s' ∧ P (k + 1) s') :
    ∃ s', (List.range n).foldlM f s0 = some s' ∧ P n s' := by
  induction n with
  | zero => exact ⟨s0, rfl, h0⟩
  | succ n ih =>
    obtain ⟨s1, hs1, hP1⟩ := ih (fun k s hk hP => hstep k s (by omega) hP)
    obtain ⟨s2, hs2, hP2⟩ := hstep n s1 (by omega) hP1
    refine ⟨s2, ?_, hP2⟩
    rw [List.range_succ, List.foldlM_append, hs1]
    simp [hs2]

/-- Positions `(i, j)` and `(i', j')` with `0 ≤ j, j' < s` have distinct
indices `i*s+j`. -/
theorem index_injective_of_lt {s i j i' j' : Int}
    (hj0 : 0 ≤ j) (hj : j < s) (hj0' : 0 ≤ j') (hj' : j' < s)
    (e : i * s + j = i' * s + j') : i = i' ∧ j = j' := by
  have key : i = i' := by
    rcases lt_trichotomy i i' with hlt | heq | hgt
    · have h1 : (i + 1) * s ≤ i' * s := Int.mul_le_mul_of_nonneg_right (by omega) (by omega)
      have h2 : (i + 1) * s = i * s + s := by ring
      omega
    · exact heq
    · have h1 : (i' + 1) * s ≤ i * s := Int.mul_le_mul_of_nonneg_right (by omega) (by omega)
      have h2 : (i' + 1) * s = i' * s + s := by ring
      omega
  subst key
  exact ⟨rfl, by omega⟩

theorem slot_in_range {g : general} (hg : g.check = none) {i j : Nat}
    (hi : i < g.rows.toNat) (hj : j < g.cols.toNat) :
    0 ≤ (i : Int) * g.stride + j ∧ (i : Int) * g.stride + j < g.data.len :=
  index_in_range hg (by omega) (by omega) (by omega) (by omega)

theorem at_eq_cell {F : Type} {g : general} (hg : g.check = none) (m : Heap F) {i j : Nat}
    (hi : i < g.rows.toNat) (hj : j < g.cols.toNat) :
    general.at g m i j = cell m g.data.arr (slot g i j) := by
  obtain ⟨h0, h1⟩ := slot_in_range hg hi hj
  unfold general.at slot
  rw [get_eq_cell _ _ _ h0 h1]

theorem slot_cell_some {F : Type} {g : general} (hg : g.check = none) {m : Heap F}
    (hv : g.data.valid m) {i j : Nat} (hi : i < g.rows.toNat) (hj : j < g.cols.toNat) :
    ∃ x, cell m g.data.arr (slot g i j) = some x := by
  obtain ⟨h0, h1⟩ := slot_in_range hg hi hj
  have hcap : g.data.len ≤ g.data.cap := hv.1
  exact cell_some_of_valid hv (by unfold slot; omega)

theorem length_overwrite {F : Type} (a : List F) (off : Nat) (vals : List F)
    (h : off + vals.length ≤ a.length) : (overwrite a off vals).length = a.length := by
  unfold overwrite
  simp only [List.length_append, List.length_take, List.length_drop]
  omega

theorem getElem?_overwrite {F : Type} (a : List F) (off : Nat) (vals : List F)
    (h : off + vals.length ≤ a.length) (idx : Nat) :
    (overwrite a off vals)[idx]? =
      if off ≤ idx ∧ idx < off + vals.length then vals[idx - off]? else a[idx]? := by
  unfold overwrite
  have hoff : min off a.length = off := by omega
  by_cases h1 : idx < off
  · rw [if_neg (by omega), List.append_assoc,
      List.getElem?_append_left (by simp only [List.length_take]; omega),
      List.getElem?_take_of_lt h1]
  · by_cases h2 : idx < off + vals.length
    · rw [if_pos ⟨by omega, h2⟩,
        List.getElem?_append_left (by simp only [List.length_append, List.length_take]; omega),
        List.getElem?_append_right (by simp only [List.length_take]; omega)]
      simp only [List.length_take, hoff]
    · rw [if_neg (by omega),
        List.getElem?_append_right (by simp only [List.length_append, List.length_take]; omega),
        List.getElem?_drop]
      simp only [List.length_append, List.length_take, hoff]
      congr 1
      omega

theorem getElem?_window {F : Type} (a : List F) (off n t : Nat) :
    ((a.drop off).take n)[t]? = if t < n then a[off + t]? else none := by
  rw [List.getElem?_take, List.getElem?_drop]

/-- The store after the builtin `copy`. -/
theorem cell_copy {F : Type} {dst src : Slice} {m m' : Heap F}
    (h : Slice.copy dst src m = some m') (a' idx' : Nat) :
    cell m' a' idx' =
      if a' = dst.arr ∧ dst.off ≤ idx' ∧ idx' < dst.off + min dst.len src.len then
        cell m src.arr (src.off + (idx' - dst.off))
      else cell m a' idx' := by
  unfold Slice.copy at h
  cases hs : m[src.arr]? with
  | none => simp [hs] at h
  | some a =>
    cases hd : m[dst.arr]? with
    | none => simp [hs, hd] at h
    | some b =>
      simp only [hs, hd] at h
      split at h
      · rename_i hb
        cases h
        have hlen : dst.arr < m.length := by
          by_contra hcon
          rw [List.getElem?_eq_none (by omega)] at hd
          exact Option.noConfusion hd
        have hvl : ((a.drop src.off).take (min dst.len src.len)).length =
            min dst.len src.len := by
          simp only [List.length_take, List.length_drop]; omega
        unfold cell
        rw [List.getElem?_set]
        by_cases ha : a' = dst.arr
        · subst ha
          simp only [hlen, if_true, true_and, hs]
          rw [getElem?_overwrite _ _ _ (by rw [hvl]; exact hb.2), hvl, getElem?_window, hd]
          by_cases hin : dst.off ≤ idx' ∧ idx' < dst.off + min dst.len src.len
          · rw [if_pos hin, if_pos hin, if_pos (by omega)]
          · rw [if_neg hin, if_neg hin]
        · have ha' : ¬ dst.arr = a' := fun e => ha e.symm
          simp only [ha, ha', if_false, false_and]
      · exact Option.noConfusion h

theorem copy_some {F : Type} {dst src : Slice} {m : Heap F}
    (hd : dst.valid m) (hs : src.valid m) : ∃ m', Slice.copy dst src m = some m' := by
  obtain ⟨hd1, b, hb, hbl⟩ := hd
  obtain ⟨hs1, a, ha, hal⟩ := hs
  unfold Slice.copy
  simp only [ha, hb]
  rw [if_pos ⟨by omega, by omega⟩]
  exact ⟨_, rfl⟩

theorem valid_copy {F : Type} {dst src : Slice} {m m' : Heap F}
    (h : Slice.copy dst src m = some m') {s : Slice} (hv : s.valid m) : s.valid m' := by
  unfold Slice.copy at h
  cases hs : m[src.arr]? with
  | none => simp [hs] at h
  | some a =>
    cases hd : m[dst.arr]? with
    | none => simp [hs, hd] at h
    | some b =>
      simp only [hs, hd] at h
      split at h
      · rename_i hb
        cases h
        obtain ⟨h1, l, hl, hll⟩ := hv
        have hvl : ((a.drop src.off).take (min dst.len src.len)).length =
            min dst.len src.len := by
          simp only [List.length_take, List.length_drop]; omega
        have hlen : dst.arr < m.length := by
          by_contra hcon
          rw [List.getElem?_eq_none (by omega)] at hd
          exact Option.noConfusion hd
        refine ⟨h1, ?_⟩
        by_cases ha : s.arr = dst.arr
        · rw [ha] at hl
          rw [hd] at hl
          cases hl
          refine ⟨overwrite b dst.off ((a.drop src.off).take (min dst.len src.len)),
            by rw [ha, List.getElem?_set]; simp only [hlen, if_true], ?_⟩
          rw [length_overwrite _ _ _ (by rw [hvl]; exact hb.2)]
          exact hll
        · have ha' : ¬ dst.arr = s.arr := fun e => ha e.symm
          exact ⟨l, by rw [List.getElem?_set]; simp only [ha', if_false]; exact hl, hll⟩
      · exact Option.noConfusion h

theorem valid_slice {F : Type} {s : Slice} {m : Heap F} (hv : s.valid m) {lo hi : Int}
    (h0 : 0 ≤ lo) (h1 : lo ≤ hi) (h2 : hi ≤ s.cap) :
    Slice.valid (⟨s.arr, s.off + lo.toNat, (hi - lo).toNat, s.cap - lo.toNat⟩ : Slice) m := by
  obtain ⟨_, l, hl, hll⟩ := hv
  exact ⟨by simp only; omega, l, hl, by simp only; omega⟩

/-- Row `k` of a buffer of `rows*stride` slots: its bounds. -/
theorem row_bounds (rows : Int) {s : Int} (hs : 0 ≤ s) {k : Nat} (hk : k < rows.toNat) :
    0 ≤ (k : Int) * s ∧ (k : Int) * s ≤ ((k : Int) + 1) * s ∧ ((k : Int) + 1) * s ≤ rows * s ∧
      ((k : Int) + 1) * s - (k : Int) * s = s := by
  have h1 : 0 ≤ (k : Int) * s := Int.mul_nonneg (by omega) hs
  have h2 : ((k : Int) + 1) * s = (k : Int) * s + s := by ring
  have h3 : ((k : Int) + 1) * s ≤ rows * s := Int.mul_le_mul_of_nonneg_right (by omega) hs
  omega

/-- One iteration of the loop of `copy`. -/
theorem copy_step {F : Type} {g h : general} {m : Heap F}
    (hgs : 0 ≤ g.stride) (hhs : 0 ≤ h.stride)
    (hcg : g.rows * g.stride ≤ g.data.cap) (hch : g.rows * h.stride ≤ h.data.cap)
    (hne : g.data.arr ≠ h.data.arr)
    {k : Nat} (hk : k < g.rows.toNat) {m2 : Heap F} (inv : copyInv g h m k m2) :
    ∃ m3, (match g.data.slice ((k : Int) * g.stride) (((k : Int) + 1) * g.stride),
          h.data.slice ((k : Int) * h.stride) (((k : Int) + 1) * h.stride) with
        | some dst, some src => Slice.copy dst src m2
        | _, _ => none) = some m3 ∧ copyInv g h m (k + 1) m3 := by
  obtain ⟨⟨hvg, hvh⟩, invA, invB⟩ := inv
  obtain ⟨g0, g1, g2, g3⟩ := row_bounds g.rows hgs hk
  obtain ⟨h0, h1, h2, h3⟩ := row_bounds g.rows hhs hk
  have hsg := slice_eq g.data _ _ g0 g1 (by omega)
  have hsh := slice_eq h.data _ _ h0 h1 (by omega)
  obtain ⟨m3, hm3⟩ := copy_some (valid_slice hvg g0 g1 (by omega))
    (valid_slice hvh h0 h1 (by omega))
  refine ⟨m3, by simp only [hsg, hsh, hm3], ⟨valid_copy hm3 hvg, valid_copy hm3 hvh⟩, ?_, ?_⟩
  · intro k' t hk' htg hth
    rw [cell_copy hm3]
    by_cases hkk : k' = k
    · subst hkk
      rw [if_pos ⟨rfl, by simp only [slot]; omega, by simp only [slot]; omega⟩]
      rw [invB _ _ (fun _ _ _ _ _ e => hne e.1.symm)]
      congr 1
      simp only [slot]; omega
    · have hlt : k' < k := by omega
      have e1 : ((k' : Int) + 1) * g.stride ≤ (k : Int) * g.stride :=
        Int.mul_le_mul_of_nonneg_right (by omega) hgs
      have e2 : ((k' : Int) + 1) * g.stride = (k' : Int) * g.stride + g.stride := by ring
      have e3 : 0 ≤ (k' : Int) * g.stride := Int.mul_nonneg (by omega) hgs
      rw [if_neg (by simp only [slot]; omega)]
      exact invA k' t hlt htg hth
  · intro a idx hnot
    rw [cell_copy hm3, if_neg]
    · exact invB a idx (fun k' t hk' htg hth => hnot k' t (by omega) htg hth)
    · rintro ⟨ha, hlo, hhi⟩
      simp only at hlo hhi
      refine hnot k (idx - (g.data.off + ((k : Int) * g.stride).toNat)) (by omega)
        (by omega) (by omega) ⟨ha, ?_⟩
      simp only [slot]; omega

/-- The loop of `copy` runs to completion. -/
theorem copy_runs {F : Type} {g h : general} {m : Heap F}
    (hvg : g.data.valid m) (hvh : h.data.valid m)
    (hgs : 0 ≤ g.stride) (hhs : 0 ≤ h.stride)
    (hcg : g.rows * g.stride ≤ g.data.cap) (hch : g.rows * h.stride ≤ h.data.cap)
    (hne : g.data.arr ≠ h.data.arr) :
    ∃ m', g.copy h m = some m' ∧ copyInv g h m g.rows.toNat m' := by
  unfold general.copy
  apply foldlM_range_inv _ (fun k m1 => copyInv g h m k m1)
  · exact ⟨⟨hvg, hvh⟩, fun k' t hk' => by omega, fun a idx _ => rfl⟩
  · intro k m1 hk inv
    exact copy_step hgs hhs hcg hch hne hk inv

/-- The loop of `equal` returns true when the two buffers hold, at every
visited index, one value that `!=` does not tell from itself. -/
theorem equalLoop_true {F : Type} (fl : Float64 F) (g a : general) (m : Heap F) (l : List Nat)
    (h : ∀ i ∈ l, ∃ v, g.data.get m (i : Int) = some v ∧ a.data.get m (i : Int) = some v ∧
      fl.ne v v = false) :
    general.equalLoop fl g a m l = some true := by
  induction l with
  | nil => rfl
  | cons i rest ih =>
    obtain ⟨v, hv, hw, hne⟩ := h i (List.mem_cons_self i rest)
    unfold general.equalLoop
    simp only [hv, hw, hne]
    exact ih (fun i' hi' => h i' (List.mem_cons_of_mem i hi'))

/-- An index below `rows*s` is `k*s+t` for a row `k < rows` and `t < s`. -/
theorem row_decomp (rows : Int) {s : Int} (hs : 1 ≤ s) (i : Nat) (hi : (i : Int) < rows * s) :
    ∃ k t : Nat, k < rows.toNat ∧ (t : Int) < s ∧ (k : Int) * s + t = i := by
  have hsN : ((s.toNat : Nat) : Int) = s := Int.toNat_of_nonneg (by omega)
  have hpos : 0 < s.toNat := by omega
  have hdm : s.toNat * (i / s.toNat) + i % s.toNat = i := Nat.div_add_mod i s.toNat
  have hmod : i % s.toNat < s.toNat := Nat.mod_lt i hpos
  have hcast : ((i / s.toNat : Nat) : Int) * s + ((i % s.toNat : Nat) : Int) = i := by
    have e : ((s.toNat * (i / s.toNat) + i % s.toNat : Nat) : Int) = (i : Int) := by rw [hdm]
    rw [Int.natCast_add, Int.natCast_mul, hsN, mul_comm] at e
    exact e
  refine ⟨i / s.toNat, i % s.toNat, ?_, by omega, hcast⟩
  by_contra hcon
  have hle : rows ≤ ((i / s.toNat : Nat) : Int) := by omega
  have hmul : rows * s ≤ ((i / s.toNat : Nat) : Int) * s :=
    Int.mul_le_mul_of_nonneg_right hle (by omega)
  omega

theorem cell_append {F : Type} (m : Heap F) (l : List F) (a idx : Nat) :
    cell (m ++ [l]) a idx = if a = m.length then l[idx]? else cell m a idx := by
  unfold cell
  by_cases h1 : a < m.length
  · rw [List.getElem?_append_left h1, if_neg (by omega)]
  · by_cases h2 : a = m.length
    · subst h2
      rw [List.getElem?_append_right (Nat.le_refl _), if_pos rfl]
      simp
    · rw [List.getElem?_append_right (by omega), if_neg h2,
        List.getElem?_eq_none (show m.length ≤ a by omega)]
      have : [l][a - m.length]? = none := List.getElem?_eq_none (by simp; omega)
      rw [this]

theorem arr_lt_of_valid {F : Type} {s : Slice} {m : Heap F} (hv : s.valid m) :
    s.arr < m.length := by
  obtain ⟨_, l, hl, _⟩ := hv
  by_contra hcon
  rw [List.getElem?_eq_none (by omega)] at hl
  exact Option.noConfusion hl

theorem valid_append {F : Type} {s : Slice} {m : Heap F} (hv : s.valid m) (l : List F) :
    s.valid (m ++ [l]) := by
  have hlt := arr_lt_of_valid hv
  obtain ⟨h1, a, ha, hal⟩ := hv
  exact ⟨h1, a, by rw [List.getElem?_append_left hlt]; exact ha, hal⟩

/-- The result of `clone`: a slice over a new backing array that holds the
`len(g.data)` values of `g`'s buffer; the arrays of the old store are as they
were. -/
theorem clone_eq {F : Type} (fl : Float64 F) {g : general} {m : Heap F}
    (hv : g.data.valid m) :
    ∃ m2, g.clone fl m =
        some (⟨⟨m.length, 0, g.data.len, g.data.len⟩, g.rows, g.cols, g.stride⟩, m2) ∧
      g.data.valid m2 ∧
      Slice.valid (⟨m.length, 0, g.data.len, g.data.len⟩ : Slice) m2 ∧
      ∀ a idx : Nat, cell m2 a idx =
        if a = m.length then
          (if idx < g.data.len then cell m g.data.arr (g.data.off + idx) else none)
        else cell m a idx := by
  have hlt := arr_lt_of_valid hv
  have hcap : g.data.len ≤ g.data.cap := hv.1
  have hmk : make fl (g.data.len : Int) m =
      some (⟨m.length, 0, g.data.len, g.data.len⟩,
        m ++ [List.replicate g.data.len fl.zero]) := by
    rw [make_eq fl _ m (by omega)]
    simp
  have hvd : Slice.valid (⟨m.length, 0, g.data.len, g.data.len⟩ : Slice)
      (m ++ [List.replicate g.data.len fl.zero]) :=
    ⟨Nat.le_refl _, List.replicate g.data.len fl.zero, by simp, by simp⟩
  have hvs := valid_append hv (List.replicate g.data.len fl.zero)
  obtain ⟨m2, hm2⟩ := copy_some hvd hvs
  refine ⟨m2, ?_, valid_copy hm2 hvs, valid_copy hm2 hvd, ?_⟩
  · unfold general.clone
    rw [hmk]
    simp only [hm2]
  · intro a idx
    rw [cell_copy hm2]
    simp only [Nat.min_self, Nat.zero_add, Nat.zero_le, true_and, Nat.sub_zero]
    by_cases ha : a = m.length
    · subst ha
      by_cases hidx : idx < g.data.len
      · rw [if_pos ⟨rfl, hidx⟩, if_pos rfl, if_pos hidx, cell_append, if_neg (by omega)]
      · rw [if_neg (fun hc => hidx hc.2), if_pos rfl, if_neg hidx, cell_append, if_pos rfl]
        exact List.getElem?_eq_none (by simp; omega)
    · rw [if_neg (fun hc => ha hc.1), if_neg ha, cell_append, if_neg ha]

/-- The loop of `equal` returns true exactly when both buffers can be read at
every visited index and `!=` is false there. -/
theorem equalLoop_eq_true {F : Type} (fl : Float64 F) (g a : general) (m : Heap F)
    (l : List Nat) :
    general.equalLoop fl g a m l = some true ↔
      ∀ i ∈ l, ∃ v w, g.data.get m (i : Int) = some v ∧ a.data.get m (i : Int) = some w ∧
        fl.ne w v = false := by
  induction l with
  | nil => simp [general.equalLoop]
  | cons i rest ih =>
    unfold general.equalLoop
    cases hv : g.data.get m (i : Int) with
    | none => simp [hv]
    | some v =>
      cases hw : a.data.get m (i : Int) with
      | none => simp [hw]
      | some w =>
        cases hne : fl.ne w v with
        | true => simp [hv, hw, hne]
        | false => simp [hv, hw, hne, ih]

/-- The loop of `equal` returns a boolean when both buffers can be read at
every visited index. -/
theorem equalLoop_some {F : Type} (fl : Float64 F) (g a : general) (m : Heap F)
    (l : List Nat)
    (h : ∀ i ∈ l, (∃ v, g.data.get m (i : Int) = some v) ∧
      ∃ w, a.data.get m (i : Int) = some w) :
    ∃ b, general.equalLoop fl g a m l = some b := by
  induction l with
  | nil => exact ⟨true, rfl⟩
  | cons i rest ih =>
    obtain ⟨⟨v, hv⟩, w, hw⟩ := h i (List.mem_cons_self i rest)
    unfold general.equalLoop
    simp only [hv, hw]
    cases hne : fl.ne w v with
    | true => exact ⟨false, by simp⟩
    | false =>
      simp only [Bool.false_eq_true, if_false]
      exact ih (fun i' hi' => h i' (List.mem_cons_of_mem i hi'))

/-- The loop of `equalWithinAbs` returns true exactly when both buffers can be
read at every visited index and `math.Abs(w-v) > tol` is false there. -/
theorem equalWithinAbsLoop_eq_true {F : Type} (fl : Float64 F) (g a : general) (tol : F)
    (m : Heap F) (l : List Nat) :
    general.equalWithinAbsLoop fl g a tol m l = some true ↔
      ∀ i ∈ l, ∃ v w, g.data.get m (i : Int) = some v ∧ a.data.get m (i : Int) = some w ∧
        fl.gt (fl.abs (fl.sub w v)) tol = false := by
  induction l with
  | nil => simp [general.equalWithinAbsLoop]
  | cons i rest ih =>
    unfold general.equalWithinAbsLoop
    cases hv : g.data.get m (i : Int) with
    | none => simp [hv]
    | some v =>
      cases hw : a.data.get m (i : Int) with
      | none => simp [hw]
      | some w =>
        cases hne : fl.gt (fl.abs (fl.sub w v)) tol with
        | true => simp [hv, hw, hne]
        | false => simp [hv, hw, hne, ih]

/-- The loop of `equalWithinAbs` returns a boolean when both buffers can be
read at every visited index. -/
theorem equalWithinAbsLoop_some {F : Type} (fl : Float64 F) (g a : general) (tol : F)
    (m : Heap F) (l : List Nat)
    (h : ∀ i ∈ l, (∃ v, g.data.get m (i : Int) = some v) ∧
      ∃ w, a.data.get m (i : Int) = some w) :
    ∃ b, general.equalWithinAbsLoop fl g a tol m l = some b := by
  induction l with
  | nil => exact ⟨true, rfl⟩
  | cons i rest ih =>
    obtain ⟨⟨v, hv⟩, w, hw⟩ := h i (List.mem_cons_self i rest)
    unfold general.equalWithinAbsLoop
    simp only [hv, hw]
    cases hne : fl.gt (fl.abs (fl.sub w v)) tol with
    | true => exact ⟨false, by simp⟩
    | false =>
      simp only [Bool.false_eq_true, if_false]
      exact ih (fun i' hi' => h i' (List.mem_cons_of_mem i hi'))

/-- Every index below the length of a valid slice can be read. -/
theorem get_some_of_valid {F : Type} {s : Slice} {m : Heap F} (hv : s.valid m) {k : Int}
    (h0 : 0 ≤ k) (h1 : k < s.len) : ∃ x, s.get m k = some x := by
  have hcap : s.len ≤ s.cap := hv.1
  rw [get_eq_cell _ _ _ h0 h1]
  exact cell_some_of_valid hv (by omega)

/-- Quantifying over the indices of `range n` is quantifying over `0 ≤ k < n`. -/
theorem forall_range_iff {n : Nat} {P : Int → Prop} :
    (∀ i ∈ List.range n, P (i : Int)) ↔ ∀ k : Int, 0 ≤ k → k < n → P k := by
  constructor
  · intro h k h0 h1
    obtain ⟨i, rfl⟩ := Int.eq_ofNat_of_zero_le h0
    exact h i (List.mem_range.mpr (by omega))
  · intro h i hi
    exact h i (by omega) (by have := List.mem_range.mp hi; omega)

/-- C7 fails on the view's buffer: for `g = newGeneral(2, 3)`,
`g.view(0, 1, 2, 2)` has as buffer the parent's `data[1:6]`, five slots ending
after index 5, not `data[1:5]`. -/
theorem example_view_not_1_5 :
    ∃ g m', newGeneral intFloat 2 3 [] = some (g, m') ∧
      ∃ v, g.view 0 1 2 2 = some v ∧ v.data.arr = g.data.arr ∧
        v.data.off = g.data.off + 1 ∧ v.data.len = 5 ∧
        v.data.off + v.data.len ≠ g.data.off + 5 :=
  ⟨_, _, rfl, _, rfl, rfl, rfl, rfl, by decide⟩

/-- C7, amended. For `g = newGeneral(2, 3)`: the buffer has length 6 and stride
3, `g.at(1, 2)` reads `data[5]`, and `g.view(0, 1, 2, 2)` has as buffer the
parent's `data[1:6]` (five slots) with rows = 2, cols = 2, stride = 3. -/
theorem example_2x3 {F : Type} (fl : Float64 F) (m : Heap F) :
    ∃ g m', newGeneral fl 2 3 m = some (g, m') ∧
      g.data.len = 6 ∧ g.stride = 3 ∧
      (∀ m1 : Heap F, general.at g m1 1 2 = g.data.get m1 5) ∧
      general.at g m' 1 2 = some fl.zero ∧
      ∃ v, g.view 0 1 2 2 = some v ∧ v.data.arr = g.data.arr ∧
        v.data.off = g.data.off + 1 ∧ v.data.off + v.data.len = g.data.off + 6 ∧
        v.data.len = 5 ∧ v.rows = 2 ∧ v.cols = 2 ∧ v.stride = 3 := by
  refine ⟨⟨⟨m.length, 0, 6, 6⟩, 2, 3, 3⟩, m ++ [List.replicate 6 fl.zero], ?_, rfl, rfl,
    fun _ => rfl, ?_, ⟨⟨m.length, 1, 5, 5⟩, 2, 2, 3⟩, rfl, rfl, rfl, rfl, rfl, rfl, rfl, rfl⟩
  · rw [newGeneral, make_eq fl _ m (by decide)]
    rfl
  · exact get_make fl 6 m (1 * 3 + 2) (by decide) (by decide)


/-- C9 fails when `g`'s buffer has a slot after the last copied row: `copy`
leaves it alone and `equal` compares it. -/
theorem copy_then_equal_false :
    g9.check = none ∧ h9.check = none ∧ g9.rows = h9.rows ∧ g9.cols = h9.cols ∧
      g9.stride = h9.stride ∧ g9.data.valid m9 ∧ h9.data.valid m9 ∧
      ∃ m', g9.copy h9 m9 = some m' ∧ g9.equal intFloat h9 m' = some false :=
  ⟨by decide, by decide, by decide, by decide, by decide, ⟨by decide, _, rfl, by decide⟩,
    ⟨by decide, _, rfl, by decide⟩, [[1, 2, 3, 4, 7], [1, 2, 3, 4, 8]], by decide, by decide⟩

/-- C9, amended. For a checked matrix `g` and a matrix `h` of equal rows, cols
and stride on another backing array, such that every slot of `g`'s buffer lies
in a copied row (`len(g.data) <= rows*stride <= cap(g.data)`), `h`'s buffer
covers them (`len(g.data) <= len(h.data)`, `rows*stride <= cap(h.data)`) and no
value of `h` differs from itself under `!=` (no NaN): `g.copy(h)` completes and
`g.equal(h)` then returns true. -/
theorem copy_then_equal {F : Type} (fl : Float64 F) (m : Heap F) (g h : general)
    (hg : g.check = none) (hvg : g.data.valid m) (hvh : h.data.valid m)
    (hrows : g.rows = h.rows) (hcols : g.cols = h.cols) (hstride : g.stride = h.stride)
    (hne : g.data.arr ≠ h.data.arr)
    (hlen : (g.data.len : Int) ≤ g.rows * g.stride)
    (hcg : g.rows * g.stride ≤ g.data.cap) (hch : g.rows * g.stride ≤ h.data.cap)
    (hlh : g.data.len ≤ h.data.len)
    (hnan : ∀ (k : Int) (x : F), h.data.get m k = some x → fl.ne x x = false) :
    ∃ m', g.copy h m = some m' ∧ g.equal fl h m' = some true := by
  obtain ⟨_, _, hs, _, _⟩ := check_none hg
  obtain ⟨m', hm', _, invA, invB⟩ := copy_runs hvg hvh (show 0 ≤ g.stride by omega)
    (show 0 ≤ h.stride by omega) hcg (by rw [← hstride]; exact hch) hne
  refine ⟨m', hm', ?_⟩
  unfold general.equal
  rw [if_neg (by simp [hrows, hcols, hstride])]
  apply equalLoop_true
  intro i hi
  have hi' : i < g.data.len := List.mem_range.mp hi
  obtain ⟨k, t, hk, ht, hkt⟩ := row_decomp g.rows hs i (by omega)
  have hcaph : h.data.len ≤ h.data.cap := hvh.1
  obtain ⟨v, hv⟩ : ∃ v, cell m h.data.arr (h.data.off + i) = some v :=
    cell_some_of_valid hvh (by omega)
  have hgi : slot g k t = g.data.off + i := by unfold slot; omega
  have hhi : slot h k t = h.data.off + i := by unfold slot; rw [← hstride]; omega
  have hhm : h.data.get m (i : Int) = some v := by
    rw [get_eq_cell _ _ _ (by omega) (by omega)]
    simpa using hv
  refine ⟨v, ?_, ?_, hnan _ _ hhm⟩
  · rw [get_eq_cell _ _ _ (by omega) (by omega)]
    have := invA k t hk ht (by omega)
    rw [hgi, hhi] at this
    simpa [hv] using this
  · rw [get_eq_cell _ _ _ (by omega) (by omega)]
    rw [invB _ _ (fun _ _ _ _ _ e => hne e.1.symm)]
    simpa using hv

theorem copy_then_equal_witness :
    gB.check = none ∧ gB.data.valid mB ∧ hB.data.valid mB ∧
    gB.rows = hB.rows ∧ gB.cols = hB.cols ∧ gB.stride = hB.stride ∧
    gB.data.arr ≠ hB.data.arr ∧ (gB.data.len : Int) ≤ gB.rows * gB.stride ∧
    ∃ m', gB.copy hB mB = some m' ∧ gB.equal intFloat hB m' = some true :=
  ⟨by decide, ⟨by decide, _, rfl, by decide⟩, ⟨by decide, _, rfl, by decide⟩,
    by decide, by decide, by decide, by decide, by decide,
    copy_then_equal intFloat mB gB hB (by decide) ⟨by decide, _, rfl, by decide⟩
      ⟨by decide, _, rfl, by decide⟩ (by decide) (by decide) (by decide) (by decide)
      (by decide) (by decide) (by decide) (by decide)
      (fun k x _ => by simp [intFloat])⟩

/-- C10 fails when `h.stride < g.stride`: the builtin `copy` moves only
`h.stride` slots per row, so `g.data[0*2+1]` keeps 9 and is not `h.data[0*1+1]`,
which is 2. -/
theorem copy_short_source_row :
    g10.rows = h10.rows ∧ g10.cols = h10.cols ∧
      g10.rows * g10.stride ≤ g10.data.len ∧ h10.rows * h10.stride ≤ h10.data.len ∧
      (1 : Int) < g10.stride ∧
      ∃ m', g10.copy h10 m10 = some m' ∧
        g10.data.get m' (0 * g10.stride + 1) = some 9 ∧
        h10.data.get m10 (0 * h10.stride + 1) = some 2 :=
  ⟨by decide, by decide, by decide, by decide, by decide,
    [[1, 9, 2, 9], [1, 2]], by decide, by decide, by decide⟩

/-- C10, amended. For matrices `g` and `h` with equal rows, strides `>= 0`,
different backing arrays and buffers of at least `rows*stride` slots each,
`g.copy(h)` completes and overwrites in every row `k < rows` the first
`min(g.stride, h.stride)` slots: for `0 <= t < g.stride`, the new
`g.data[k*g.stride+t]` is `h.data[k*h.stride+t]` when `t < h.stride`, and is
unchanged when `t >= h.stride`. -/
theorem copy_spec {F : Type} (m : Heap F) (g h : general)
    (hvg : g.data.valid m) (hvh : h.data.valid m) (hrows : g.rows = h.rows)
    (hgs : 0 ≤ g.stride) (hhs : 0 ≤ h.stride)
    (hlg : g.rows * g.stride ≤ g.data.len) (hlh : h.rows * h.stride ≤ h.data.len)
    (hne : g.data.arr ≠ h.data.arr) :
    ∃ m', g.copy h m = some m' ∧
      ∀ k t : Int, 0 ≤ k → k < g.rows → 0 ≤ t → t < g.stride →
        (t < h.stride → ∃ x, h.data.get m (k * h.stride + t) = some x ∧
          g.data.get m' (k * g.stride + t) = some x) ∧
        (h.stride ≤ t → g.data.get m' (k * g.stride + t) = g.data.get m (k * g.stride + t)) := by
  have hcapg : g.data.len ≤ g.data.cap := hvg.1
  have hcaph : h.data.len ≤ h.data.cap := hvh.1
  obtain ⟨m', hm', _, invA, invB⟩ := copy_runs hvg hvh hgs hhs (by omega)
    (show g.rows * h.stride ≤ h.data.cap by rw [hrows]; omega) hne
  refine ⟨m', hm', ?_⟩
  intro k t hk0 hk ht0 ht
  obtain ⟨k', rfl⟩ := Int.eq_ofNat_of_zero_le hk0
  obtain ⟨t', rfl⟩ := Int.eq_ofNat_of_zero_le ht0
  have hk' : k' < g.rows.toNat := by omega
  obtain ⟨g0, g1, g2, g3⟩ := row_bounds g.rows hgs hk'
  obtain ⟨h0, h1, h2, h3⟩ := row_bounds g.rows hhs hk'
  have hgr : (0 : Int) ≤ (k' : Int) * g.stride + t' ∧
      (k' : Int) * g.stride + t' < g.data.len := by omega
  constructor
  · intro hth
    have hhr : (0 : Int) ≤ (k' : Int) * h.stride + t' ∧
        (k' : Int) * h.stride + t' < h.data.len := by rw [hrows] at h2; omega
    obtain ⟨x, hx⟩ : ∃ x, cell m h.data.arr (slot h k' t') = some x :=
      cell_some_of_valid hvh (by unfold slot; omega)
    refine ⟨x, ?_, ?_⟩
    · rw [get_eq_cell _ _ _ hhr.1 hhr.2]; exact hx
    · rw [get_eq_cell _ _ _ hgr.1 hgr.2]
      have := invA k' t' hk' ht hth
      rw [hx] at this
      exact this
  · intro hth
    rw [get_eq_cell _ _ _ hgr.1 hgr.2, get_eq_cell _ _ _ hgr.1 hgr.2]
    refine invB _ _ (fun k2 t2 hk2 ht2 hth2 e => ?_)
    have e2 := e.2
    unfold slot at e2
    have e3 : 0 ≤ (k2 : Int) * g.stride := Int.mul_nonneg (by omega) hgs
    have e4 : (k' : Int) * g.stride + t' = (k2 : Int) * g.stride + t2 := by omega
    have := index_injective_of_lt (by omega) ht (by omega) ht2 e4
    omega

theorem copy_spec_witness :
    g10.data.valid m10 ∧ h10.data.valid m10 ∧ g10.rows = h10.rows ∧
    g10.rows * g10.stride ≤ g10.data.len ∧ h10.rows * h10.stride ≤ h10.data.len ∧
    g10.data.arr ≠ h10.data.arr ∧
    ∃ m', g10.copy h10 m10 = some m' ∧
      ∀ k t : Int, 0 ≤ k → k < g10.rows → 0 ≤ t → t < g10.stride →
        (t < h10.stride → ∃ x, h10.data.get m10 (k * h10.stride + t) = some x ∧
          g10.data.get m' (k * g10.stride + t) = some x) ∧
        (h10.stride ≤ t →
          g10.data.get m' (k * g10.stride + t) = g10.data.get m10 (k * g10.stride + t)) :=
  ⟨⟨by decide, _, rfl, by decide⟩, ⟨by decide, _, rfl, by decide⟩, by decide, by decide,
    by decide, by decide,
    copy_spec m10 g10 h10 ⟨by decide, _, rfl, by decide⟩ ⟨by decide, _, rfl, by decide⟩
      (by decide) (by decide) (by decide) (by decide) (by decide) (by decide)⟩

/-- C11. For every matrix `g`, `g.clone()` returns a matrix with the rows, cols
and stride of `g` and a buffer, on a new backing array, of the same length as
`g`'s buffer that holds the same value at every index of the full buffer; `g`
itself is unchanged. -/
theorem clone_spec {F : Type} (fl : Float64 F) (m : Heap F) (g : general)
    (hv : g.data.valid m) :
    ∃ c m2, g.clone fl m = some (c, m2) ∧
      c.rows = g.rows ∧ c.cols = g.cols ∧ c.stride = g.stride ∧
      c.data.len = g.data.len ∧ c.data.arr ≠ g.data.arr ∧
      (∀ k : Int, 0 ≤ k → k < g.data.len →
        ∃ x, g.data.get m k = some x ∧ c.data.get m2 k = some x) ∧
      (∀ k : Int, g.data.get m2 k = g.data.get m k) ∧
      (∀ a idx : Nat, a < m.length → cell m2 a idx = cell m a idx) := by
  have hlt := arr_lt_of_valid hv
  have hcap : g.data.len ≤ g.data.cap := hv.1
  obtain ⟨m2, hm2, _, _, hcell⟩ := clone_eq fl hv
  have hold : ∀ a idx : Nat, a < m.length → cell m2 a idx = cell m a idx := by
    intro a idx ha
    rw [hcell, if_neg (by omega)]
  refine ⟨_, m2, hm2, rfl, rfl, rfl, rfl, by simp only; omega, ?_, ?_, hold⟩
  · intro k h0 h1
    obtain ⟨x, hx⟩ : ∃ x, cell m g.data.arr (g.data.off + k.toNat) = some x :=
      cell_some_of_valid hv (by omega)
    refine ⟨x, ?_, ?_⟩
    · rw [get_eq_cell _ _ _ h0 h1]; exact hx
    · rw [get_eq_cell _ _ _ h0 (by simpa using h1), hcell]
      simp only [Nat.zero_add, if_true]
      rw [if_pos (by omega)]
      exact hx
  · intro k
    unfold Slice.get
    rw [hold _ _ hlt]

theorem clone_spec_witness :
    g23.data.valid m23 ∧
    ∃ c m2, g23.clone intFloat m23 = some (c, m2) ∧
      c.rows = g23.rows ∧ c.cols = g23.cols ∧ c.stride = g23.stride ∧
      c.data.len = g23.data.len ∧ c.data.arr ≠ g23.data.arr ∧
      (∀ k : Int, 0 ≤ k → k < g23.data.len →
        ∃ x, g23.data.get m23 k = some x ∧ c.data.get m2 k = some x) ∧
      (∀ k : Int, g23.data.get m2 k = g23.data.get m23 k) ∧
      (∀ a idx : Nat, a < m23.length → cell m2 a idx = cell m23 a idx) :=
  ⟨⟨by decide, _, rfl, by decide⟩,
    clone_spec intFloat m23 g23 ⟨by decide, _, rfl, by decide⟩⟩

/-- C12 fails on a buffer that holds a NaN: the clone holds the same NaN, and
`!=` tells a NaN from itself, so `equal` returns false in both directions. -/
theorem clone_nan_not_equal :
    gNaN.data.valid mNaN ∧
    ∃ c m2, gNaN.clone ieee mNaN = some (c, m2) ∧
      c.equal ieee gNaN m2 = some false ∧ gNaN.equal ieee c m2 = some false :=
  ⟨⟨by decide, _, rfl, by decide⟩, ⟨⟨1, 0, 1, 1⟩, 1, 1, 1⟩, [[F64.nan], [F64.nan]],
    by decide, by decide, by decide⟩

/-- C12, amended. For every matrix `g` whose buffer holds no value that `!=`
tells from itself (no NaN), `g.clone().equal(g)` returns true, and so does
`g.equal(g.clone())`. -/
theorem clone_equal {F : Type} (fl : Float64 F) (m : Heap F) (g : general)
    (hv : g.data.valid m)
    (hnan : ∀ (k : Int) (x : F), g.data.get m k = some x → fl.ne x x = false) :
    ∃ c m2, g.clone fl m = some (c, m2) ∧
      c.equal fl g m2 = some true ∧ g.equal fl c m2 = some true := by
  have hlt := arr_lt_of_valid hv
  have hcap : g.data.len ≤ g.data.cap := hv.1
  obtain ⟨m2, hm2, _, _, hcell⟩ := clone_eq fl hv
  have key : ∀ i : Nat, i < g.data.len →
      ∃ x, g.data.get m2 (i : Int) = some x ∧
        Slice.get (⟨m.length, 0, g.data.len, g.data.len⟩ : Slice) m2 (i : Int) = some x ∧
        fl.ne x x = false := by
    intro i hi
    obtain ⟨x, hx⟩ : ∃ x, cell m g.data.arr (g.data.off + i) = some x :=
      cell_some_of_valid hv (by omega)
    have hgm : g.data.get m (i : Int) = some x := by
      rw [get_eq_cell _ _ _ (by omega) (by omega)]
      simpa using hx
    refine ⟨x, ?_, ?_, hnan _ _ hgm⟩
    · rw [get_eq_cell _ _ _ (by omega) (by omega), hcell, if_neg (by omega)]
      simpa using hx
    · rw [get_eq_cell _ _ _ (by omega) (by simp only; omega), hcell]
      simp only [Nat.zero_add, if_true, Int.toNat_ofNat]
      rw [if_pos hi]
      exact hx
  refine ⟨_, m2, hm2, ?_, ?_⟩
  · unfold general.equal
    rw [if_neg (by simp)]
    apply equalLoop_true
    intro i hi
    obtain ⟨x, h1, h2, h3⟩ := key i (List.mem_range.mp hi)
    exact ⟨x, h2, h1, h3⟩
  · unfold general.equal
    rw [if_neg (by simp)]
    apply equalLoop_true
    intro i hi
    obtain ⟨x, h1, h2, h3⟩ := key i (List.mem_range.mp hi)
    exact ⟨x, h1, h2, h3⟩

theorem clone_equal_witness :
    g23.data.valid m23 ∧
    ∃ c m2, g23.clone intFloat m23 = some (c, m2) ∧
      c.equal intFloat g23 m2 = some true ∧ g23.equal intFloat c m2 = some true :=
  ⟨⟨by decide, _, rfl, by decide⟩,
    clone_equal intFloat m23 g23 ⟨by decide, _, rfl, by decide⟩
      (fun k x _ => by simp [intFloat])⟩

/-- C19. For checked matrices `g` and `h` of equal rows and cols (whatever
their strides) on different backing arrays, with buffers of at least
`rows*g.stride` and `rows*h.stride` slots, `g.copy(h)` completes; afterwards
every logical position of `g` holds `h.at(i, j)`, and `h` is unchanged. -/
theorem copy_logical {F : Type} (m : Heap F) (g h : general)
    (hg : g.check = none) (hh : h.check = none)
    (hvg : g.data.valid m) (hvh : h.data.valid m)
    (hrows : g.rows = h.rows) (hcols : g.cols = h.cols) (hne : g.data.arr ≠ h.data.arr)
    (hlg : g.rows * g.stride ≤ g.data.len) (hlh : h.rows * h.stride ≤ h.data.len) :
    ∃ m', g.copy h m = some m' ∧
      (∀ i j : Int, 0 ≤ i → i < g.rows → 0 ≤ j → j < g.cols →
        ∃ x, general.at h m i j = some x ∧ general.at g m' i j = some x) ∧
      (∀ k : Int, h.data.get m' k = h.data.get m k) ∧
      (∀ i j : Int, general.at h m' i j = general.at h m i j) := by
  obtain ⟨_, _, hgs, hgc, _⟩ := check_none hg
  obtain ⟨_, _, hhs, hhc, _⟩ := check_none hh
  have hcapg : g.data.len ≤ g.data.cap := hvg.1
  have hcaph : h.data.len ≤ h.data.cap := hvh.1
  obtain ⟨m', hm', _, invA, invB⟩ := copy_runs hvg hvh (show 0 ≤ g.stride by omega)
    (show 0 ≤ h.stride by omega) (by omega)
    (show g.rows * h.stride ≤ h.data.cap by rw [hrows]; omega) hne
  have hh' : ∀ k : Int, h.data.get m' k = h.data.get m k := by
    intro k
    unfold Slice.get
    rw [invB _ _ (fun _ _ _ _ _ e => hne e.1.symm)]
  refine ⟨m', hm', ?_, hh', fun i j => hh' _⟩
  intro i j hi0 hi hj0 hj
  obtain ⟨i', rfl⟩ := Int.eq_ofNat_of_zero_le hi0
  obtain ⟨j', rfl⟩ := Int.eq_ofNat_of_zero_le hj0
  have hi' : i' < g.rows.toNat := by omega
  have hj' : j' < g.cols.toNat := by omega
  have hih : i' < h.rows.toNat := by omega
  have hjh : j' < h.cols.toNat := by omega
  obtain ⟨x, hx⟩ := slot_cell_some hh hvh hih hjh
  refine ⟨x, ?_, ?_⟩
  · rw [at_eq_cell hh m hih hjh]; exact hx
  · rw [at_eq_cell hg m' hi' hj', invA i' j' hi' (by omega) (by omega)]
    exact hx

theorem copy_logical_witness :
    gA.check = none ∧ hA.check = none ∧ gA.data.valid mA ∧ hA.data.valid mA ∧
    gA.rows = hA.rows ∧ gA.cols = hA.cols ∧ gA.data.arr ≠ hA.data.arr ∧
    gA.rows * gA.stride ≤ gA.data.len ∧ hA.rows * hA.stride ≤ hA.data.len ∧
    ∃ m', gA.copy hA mA = some m' ∧
      (∀ i j : Int, 0 ≤ i → i < gA.rows → 0 ≤ j → j < gA.cols →
        ∃ x, general.at hA mA i j = some x ∧ general.at gA m' i j = some x) ∧
      (∀ k : Int, hA.data.get m' k = hA.data.get mA k) ∧
      (∀ i j : Int, general.at hA m' i j = general.at hA mA i j) :=
  ⟨by decide, by decide, ⟨by decide, _, rfl, by decide⟩, ⟨by decide, _, rfl, by decide⟩,
    by decide, by decide, by decide, by decide, by decide,
    copy_logical mA gA hA (by decide) (by decide) ⟨by decide, _, rfl, by decide⟩
      ⟨by decide, _, rfl, by decide⟩ (by decide) (by decide) (by decide) (by decide)
      (by decide)⟩


/-- C13 fails on NaN: two 1x1 matrices whose one-slot buffers hold the same
value, a NaN, have matching rows, cols and stride and identical buffers, and
`equal` returns false. -/
theorem equal_nan_false :
    gNaN.data.len = aNaN.data.len ∧ gNaN.data.len = 1 ∧
      gNaN.rows = aNaN.rows ∧ gNaN.cols = aNaN.cols ∧ gNaN.stride = aNaN.stride ∧
      gNaN.data.get mNaN2 0 = aNaN.data.get mNaN2 0 ∧
      gNaN.equal ieee aNaN mNaN2 = some false :=
  ⟨by decide, by decide, by decide, by decide, by decide, by decide, by decide⟩

/-- C13, amended. For matrices `g` and `a` whose buffers have the same length,
`g.equal(a)` returns a boolean, and returns true if and only if rows, cols and
stride match and at every index `k` of the full buffer `a.data[k] != g.data[k]`
is false. When `!=` on the stored values is exactly non-identity (no NaN, no
zeros of opposite sign), that is: `g.data[k]` is identical to `a.data[k]` at
every index. -/
theorem equal_spec {F : Type} (fl : Float64 F) (m : Heap F) (g a : general)
    (hvg : g.data.valid m) (hva : a.data.valid m) (hlen : g.data.len = a.data.len) :
    (∃ b, g.equal fl a m = some b) ∧
    (g.equal fl a m = some true ↔
      g.rows = a.rows ∧ g.cols = a.cols ∧ g.stride = a.stride ∧
        ∀ k : Int, 0 ≤ k → k < g.data.len →
          ∃ v w, g.data.get m k = some v ∧ a.data.get m k = some w ∧ fl.ne w v = false) ∧
    ((∀ (k : Int) (v w : F), g.data.get m k = some v → a.data.get m k = some w →
        (fl.ne w v = false ↔ v = w)) →
      (g.equal fl a m = some true ↔
        g.rows = a.rows ∧ g.cols = a.cols ∧ g.stride = a.stride ∧
          ∀ k : Int, 0 ≤ k → k < g.data.len → g.data.get m k = a.data.get m k)) := by
  have hread : ∀ k : Int, 0 ≤ k → k < g.data.len →
      (∃ v, g.data.get m k = some v) ∧ ∃ w, a.data.get m k = some w :=
    fun k h0 h1 => ⟨get_some_of_valid hvg h0 h1, get_some_of_valid hva h0 (by omega)⟩
  have hiff : g.equal fl a m = some true ↔
      g.rows = a.rows ∧ g.cols = a.cols ∧ g.stride = a.stride ∧
        ∀ k : Int, 0 ≤ k → k < g.data.len →
          ∃ v w, g.data.get m k = some v ∧ a.data.get m k = some w ∧ fl.ne w v = false := by
    unfold general.equal
    by_cases hd : g.rows ≠ a.rows ∨ g.cols ≠ a.cols ∨ g.stride ≠ a.stride
    · rw [if_pos hd]
      constructor
      · intro h; cases h
      · rintro ⟨h1, h2, h3, _⟩
        rcases hd with hd | hd | hd
        · exact absurd h1 hd
        · exact absurd h2 hd
        · exact absurd h3 hd
    · rw [if_neg hd, equalLoop_eq_true]
      have hd' : g.rows = a.rows ∧ g.cols = a.cols ∧ g.stride = a.stride := by
        refine ⟨?_, ?_, ?_⟩ <;> by_contra hc <;> exact hd (by simp [hc])
      rw [forall_range_iff (P := fun k => ∃ v w, g.data.get m k = some v ∧
        a.data.get m k = some w ∧ fl.ne w v = false)]
      exact ⟨fun h => ⟨hd'.1, hd'.2.1, hd'.2.2, h⟩, fun h => h.2.2.2⟩
  refine ⟨?_, hiff, ?_⟩
  · unfold general.equal
    split
    · exact ⟨false, rfl⟩
    · exact equalLoop_some fl g a m _
        (forall_range_iff (P := fun k => (∃ v, g.data.get m k = some v) ∧
          ∃ w, a.data.get m k = some w).mpr hread)
  · intro hne
    rw [hiff]
    constructor
    · rintro ⟨h1, h2, h3, h⟩
      refine ⟨h1, h2, h3, fun k h0 hk => ?_⟩
      obtain ⟨v, w, hv, hw, hvw⟩ := h k h0 hk
      rw [hv, hw, (hne k v w hv hw).mp hvw]
    · rintro ⟨h1, h2, h3, h⟩
      refine ⟨h1, h2, h3, fun k h0 hk => ?_⟩
      obtain ⟨⟨v, hv⟩, w, hw⟩ := hread k h0 hk
      have hvw : v = w := by
        have := h k h0 hk
        rw [hv, hw] at this
        exact Option.some.inj this
      exact ⟨v, w, hv, hw, (hne k v w hv hw).mpr hvw⟩

theorem equal_spec_witness :
    gB.data.valid mB ∧ hB.data.valid mB ∧ gB.data.len = hB.data.len ∧
    (∃ b, gB.equal intFloat hB mB = some b) ∧
    (gB.equal intFloat hB mB = some true ↔
      gB.rows = hB.rows ∧ gB.cols = hB.cols ∧ gB.stride = hB.stride ∧
        ∀ k : Int, 0 ≤ k → k < gB.data.len →
          ∃ v w, gB.data.get mB k = some v ∧ hB.data.get mB k = some w ∧
            intFloat.ne w v = false) ∧
    ((∀ (k : Int) (v w : Int), gB.data.get mB k = some v → hB.data.get mB k = some w →
        (intFloat.ne w v = false ↔ v = w)) →
      (gB.equal intFloat hB mB = some true ↔
        gB.rows = hB.rows ∧ gB.cols = hB.cols ∧ gB.stride = hB.stride ∧
          ∀ k : Int, 0 ≤ k → k < gB.data.len → gB.data.get mB k = hB.data.get mB k)) :=
  ⟨⟨by decide, _, rfl, by decide⟩, ⟨by decide, _, rfl, by decide⟩, by decide,
    equal_spec intFloat mB gB hB ⟨by decide, _, rfl, by decide⟩
      ⟨by decide, _, rfl, by decide⟩ (by decide)⟩

/-- C14 fails when `g`'s buffer is the shorter one: `equal` visits only the
indices of `g.data`, so a fifth slot of `a` is never compared and the result is
true. -/
theorem equal_longer_other_true :
    g14.data.len ≠ a14.data.len ∧ g14.data.valid m14 ∧ a14.data.valid m14 ∧
      g14.equal intFloat a14 m14 = some true :=
  ⟨by decide, ⟨by decide, _, rfl, by decide⟩, ⟨by decide, _, rfl, by decide⟩, by decide⟩

/-- C14, amended. When `a`'s buffer is shorter than `g`'s, or the strides
differ, `g.equal(a)` does not return true (with a shorter `a` it returns false
or panics on `a.data[len(a.data)]`); whenever the strides differ it returns
false. Nothing is claimed when `g`'s buffer is the shorter one. -/
theorem equal_mismatch {F : Type} (fl : Float64 F) (m : Heap F) (g a : general)
    (h : a.data.len < g.data.len ∨ g.stride ≠ a.stride) :
    g.equal fl a m ≠ some true ∧ (g.stride ≠ a.stride → g.equal fl a m = some false) := by
  have hs : g.stride ≠ a.stride → g.equal fl a m = some false := by
    intro hne
    unfold general.equal
    rw [if_pos (Or.inr (Or.inr hne))]
  refine ⟨?_, hs⟩
  rcases h with h | h
  · intro htrue
    unfold general.equal at htrue
    split at htrue
    · cases htrue
    · rw [equalLoop_eq_true] at htrue
      obtain ⟨v, w, _, hw, _⟩ := htrue a.data.len (List.mem_range.mpr h)
      unfold Slice.get at hw
      rw [if_neg (by omega)] at hw
      exact Option.noConfusion hw
  · rw [hs h]
    intro hc
    cases hc

theorem equal_mismatch_witness :
    (g14.data.len < a14.data.len ∨ a14.stride ≠ g14.stride) ∧
    a14.equal intFloat g14 m14 ≠ some true ∧
    (a14.stride ≠ g14.stride → a14.equal intFloat g14 m14 = some false) :=
  ⟨by decide, equal_mismatch intFloat m14 a14 g14 (by decide)⟩

/-- C15. Over exact arithmetic, for matrices `g` and `a` with buffers of the
same length and every tolerance `tol`, `g.equalWithinAbs(a, tol)` returns a
boolean, and returns true if and only if rows, cols and stride match and
`|a.data[k] - g.data[k]| <= tol` at every buffer index `k`; in particular it is
true when every slot differs by exactly `tol`, and false when some slot differs
by `tol + e` with `e > 0`. -/
theorem equalWithinAbs_spec {F : Type} [LinearOrderedRing F] (fl : Float64 F)
    (hex : fl.exact) (m : Heap F) (g a : general) (tol : F)
    (hvg : g.data.valid m) (hva : a.data.valid m) (hlen : g.data.len = a.data.len) :
    (∃ b, g.equalWithinAbs fl a tol m = some b) ∧
    (g.equalWithinAbs fl a tol m = some true ↔
      g.rows = a.rows ∧ g.cols = a.cols ∧ g.stride = a.stride ∧
        ∀ k : Int, 0 ≤ k → k < g.data.len →
          ∃ v w, g.data.get m k = some v ∧ a.data.get m k = some w ∧ |w - v| ≤ tol) ∧
    ((g.rows = a.rows ∧ g.cols = a.cols ∧ g.stride = a.stride ∧
        ∀ k : Int, 0 ≤ k → k < g.data.len →
          ∃ v w, g.data.get m k = some v ∧ a.data.get m k = some w ∧ |w - v| = tol) →
      g.equalWithinAbs fl a tol m = some true) ∧
    (∀ e : F, 0 < e →
      (∃ k : Int, 0 ≤ k ∧ k < g.data.len ∧
        ∃ v w, g.data.get m k = some v ∧ a.data.get m k = some w ∧ |w - v| = tol + e) →
      g.equalWithinAbs fl a tol m = some false) := by
  obtain ⟨hsub, habs, hgt⟩ := hex
  have hcmp : ∀ v w : F, fl.gt (fl.abs (fl.sub w v)) tol = false ↔ |w - v| ≤ tol := by
    intro v w
    rw [hsub, habs, ← not_lt, ← hgt, Bool.not_eq_true]
  have hread : ∀ k : Int, 0 ≤ k → k < g.data.len →
      (∃ v, g.data.get m k = some v) ∧ ∃ w, a.data.get m k = some w :=
    fun k h0 h1 => ⟨get_some_of_valid hvg h0 h1, get_some_of_valid hva h0 (by omega)⟩
  have hsome : ∃ b, g.equalWithinAbs fl a tol m = some b := by
    unfold general.equalWithinAbs
    split
    · exact ⟨false, rfl⟩
    · exact equalWithinAbsLoop_some fl g a tol m _
        (forall_range_iff (P := fun k => (∃ v, g.data.get m k = some v) ∧
          ∃ w, a.data.get m k = some w).mpr hread)
  have hiff : g.equalWithinAbs fl a tol m = some true ↔
      g.rows = a.rows ∧ g.cols = a.cols ∧ g.stride = a.stride ∧
        ∀ k : Int, 0 ≤ k → k < g.data.len →
          ∃ v w, g.data.get m k = some v ∧ a.data.get m k = some w ∧ |w - v| ≤ tol := by
    unfold general.equalWithinAbs
    by_cases hd : g.rows ≠ a.rows ∨ g.cols ≠ a.cols ∨ g.stride ≠ a.stride
    · rw [if_pos hd]
      constructor
      · intro h; cases h
      · rintro ⟨h1, h2, h3, _⟩
        rcases hd with hd | hd | hd
        · exact absurd h1 hd
        · exact absurd h2 hd
        · exact absurd h3 hd
    · rw [if_neg hd, equalWithinAbsLoop_eq_true]
      have hd' : g.rows = a.rows ∧ g.cols = a.cols ∧ g.stride = a.stride := by
        refine ⟨?_, ?_, ?_⟩ <;> by_contra hc <;> exact hd (by simp [hc])
      rw [forall_range_iff (P := fun k => ∃ v w, g.data.get m k = some v ∧
        a.data.get m k = some w ∧ fl.gt (fl.abs (fl.sub w v)) tol = false)]
      constructor
      · intro h
        refine ⟨hd'.1, hd'.2.1, hd'.2.2, fun k h0 hk => ?_⟩
        obtain ⟨v, w, hv, hw, hvw⟩ := h k h0 hk
        exact ⟨v, w, hv, hw, (hcmp v w).mp hvw⟩
      · intro h k h0 hk
        obtain ⟨v, w, hv, hw, hvw⟩ := h.2.2.2 k h0 hk
        exact ⟨v, w, hv, hw, (hcmp v w).mpr hvw⟩
  refine ⟨hsome, hiff, ?_, ?_⟩
  · rintro ⟨h1, h2, h3, h⟩
    rw [hiff]
    refine ⟨h1, h2, h3, fun k h0 hk => ?_⟩
    obtain ⟨v, w, hv, hw, hvw⟩ := h k h0 hk
    exact ⟨v, w, hv, hw, le_of_eq hvw⟩
  · rintro e he ⟨k, h0, hk, v, w, hv, hw, hvw⟩
    obtain ⟨b, hb⟩ := hsome
    cases b with
    | false => exact hb
    | true =>
      exfalso
      obtain ⟨v', w', hv', hw', hle⟩ := (hiff.mp hb).2.2.2 k h0 hk
      rw [hv] at hv'
      rw [hw] at hw'
      cases hv'
      cases hw'
      rw [hvw] at hle
      exact absurd hle (not_le.mpr (lt_add_of_pos_right tol he))

theorem equalWithinAbs_spec_witness :
    intFloat.exact ∧ gB.data.valid m15 ∧ hB.data.valid m15 ∧ gB.data.len = hB.data.len ∧
    (∃ b, gB.equalWithinAbs intFloat hB 2 m15 = some b) ∧
    (gB.equalWithinAbs intFloat hB 2 m15 = some true ↔
      gB.rows = hB.rows ∧ gB.cols = hB.cols ∧ gB.stride = hB.stride ∧
        ∀ k : Int, 0 ≤ k → k < gB.data.len →
          ∃ v w, gB.data.get m15 k = some v ∧ hB.data.get m15 k = some w ∧ |w - v| ≤ 2) ∧
    ((gB.rows = hB.rows ∧ gB.cols = hB.cols ∧ gB.stride = hB.stride ∧
        ∀ k : Int, 0 ≤ k → k < gB.data.len →
          ∃ v w, gB.data.get m15 k = some v ∧ hB.data.get m15 k = some w ∧ |w - v| = 2) →
      gB.equalWithinAbs intFloat hB 2 m15 = some true) ∧
    (∀ e : Int, 0 < e →
      (∃ k : Int, 0 ≤ k ∧ k < gB.data.len ∧
        ∃ v w, gB.data.get m15 k = some v ∧ hB.data.get m15 k = some w ∧ |w - v| = 2 + e) →
      gB.equalWithinAbs intFloat hB 2 m15 = some false) :=
  ⟨⟨fun _ _ => rfl, fun _ => rfl, fun x y => by simp [intFloat]⟩,
    ⟨by decide, _, rfl, by decide⟩, ⟨by decide, _, rfl, by decide⟩, by decide,
    equalWithinAbs_spec intFloat ⟨fun _ _ => rfl, fun _ => rfl, fun x y => by simp [intFloat]⟩
      m15 gB hB 2 ⟨by decide, _, rfl, by decide⟩ ⟨by decide, _, rfl, by decide⟩ (by decide)⟩


end goblas
